import Mathlib

/-!
Shallow embedding of the streaming invocation aggregator and suggestion
merger of `src/server/app/internal/ai_enhanced.py`.

The embedding mirrors the Python source:

* `JVal` models the values produced by `json.loads`; the parser itself is
  Python standard-library code, so it is passed in abstractly as a function
  `String → Option JVal` (`none` models `json.JSONDecodeError`).
* Python `dict` state (`current_function_calls`) is modelled as an
  insertion-ordered association list: assignment to an existing key keeps
  its position, assignment to a fresh key appends at the end, and
  iteration (`.items()`) walks the list in that order — exactly the
  semantics of a CPython 3.7+ dict.
* Python exceptions other than the locally caught `json.JSONDecodeError`
  (e.g. `AttributeError` from calling `.get` on a non-dict) abort the whole
  generator; this is modelled with `Except Unit`.
-/

namespace AIEnhanced

/-- A JSON value as produced by `json.loads`. -/
inductive JVal where
  | null
  | bool (b : Bool)
  | num (n : Int)
  | str (s : String)
  | arr (xs : List JVal)
  | obj (kvs : List (String × JVal))

/-- Python truthiness of a parsed JSON value (`if x:`). -/
def JVal.pyTruthy : JVal → Bool
  | .null => false
  | .bool b => b
  | .num n => n != 0
  | .str s => s != ""
  | .arr xs => !xs.isEmpty
  | .obj kvs => !kvs.isEmpty

/-- Whether a parsed JSON value is hashable in Python (usable as a `dict` key,
as in `severity_order.get(x, 2)`); lists and dicts are not. -/
def JVal.hashable : JVal → Bool
  | .arr _ => false
  | .obj _ => false
  | _ => true

/-- `d.get(k)` on a parsed JSON object: first entry with the given key. -/
def objGet? (kvs : List (String × JVal)) (k : String) : Option JVal :=
  (kvs.find? (fun p => p.1 == k)).map (fun p => p.2)

/-- `d.get(k, default)` on a parsed JSON object. -/
def objGetD (kvs : List (String × JVal)) (k : String) (d : JVal) : JVal :=
  (objGet? kvs k).getD d

/-- One reconstructed function call: the value of
`{"name": ..., "arguments": ...}` built by the aggregation loop. -/
structure FuncCall where
  name : String
  arguments : String
deriving DecidableEq

/-- One element of `delta.tool_calls`: `index` is the slot
(`tool_call.index`), `name` is `tool_call.function.name` with the empty
string standing for both `None` and `""` (the Python code only tests its
truthiness), and `arguments` is `tool_call.function.arguments`
(`none` = Python `None`; the source applies `or ""` before use). -/
structure ToolCallFragment where
  index : Nat
  name : String
  arguments : Option String
deriving DecidableEq

/-- One streaming chunk's `chunk.choices[0].delta`: optional text content
and the (possibly empty) list of tool-call fragments. -/
structure Delta where
  content : Option String
  tool_calls : List ToolCallFragment
deriving DecidableEq

/-- The aggregation loop's state: the list `function_calls` of already
finalized calls and the insertion-ordered dict `current_function_calls`. -/
structure AggState where
  function_calls : List FuncCall
  current_function_calls : List (Nat × FuncCall)
deriving DecidableEq

/-- Python dict lookup `d[k]` / `k in d` on the insertion-ordered
association list. -/
def dictGet? (l : List (Nat × FuncCall)) (k : Nat) : Option FuncCall :=
  (l.find? (fun p => p.1 == k)).map (fun p => p.2)

/-- Python dict assignment `d[k] = v`: replace in place if the key is
present, append otherwise. -/
def dictSet (l : List (Nat × FuncCall)) (k : Nat) (v : FuncCall) : List (Nat × FuncCall) :=
  if l.any (fun p => p.1 == k) then
    l.map (fun p => if p.1 == k then (k, v) else p)
  else
    l ++ [(k, v)]

/-- Processing of one `tool_call` fragment inside the
`for tool_call in delta.tool_calls` loop (lines 80–97 of the source):
a truthy `name` finalizes any previous occupant of the slot and opens a new
pending call; otherwise the arguments chunk is appended to the pending call
of that slot, and dropped when the slot is not pending. -/
def stepFragment (st : AggState) (tc : ToolCallFragment) : AggState :=
  if tc.name != "" then
    let finalized :=
      match dictGet? st.current_function_calls tc.index with
      | some prev => st.function_calls ++ [prev]
      | none => st.function_calls
    { function_calls := finalized,
      current_function_calls :=
        dictSet st.current_function_calls tc.index
          { name := tc.name, arguments := tc.arguments.getD "" } }
  else
    match dictGet? st.current_function_calls tc.index with
    | some prev =>
      { st with
        current_function_calls :=
          dictSet st.current_function_calls tc.index
            { name := prev.name, arguments := prev.arguments ++ tc.arguments.getD "" } }
    | none => st

/-- Processing of one streamed `chunk`: fold over its tool-call fragments
(the `delta.content` branch only logs in the review loop and yields in the
chat loop; it does not touch aggregation state). -/
def stepDelta (st : AggState) (d : Delta) : AggState :=
  d.tool_calls.foldl stepFragment st

/-- The aggregation state after consuming the whole stream. -/
def runAggregation (deltas : List Delta) : AggState :=
  deltas.foldl stepDelta { function_calls := [], current_function_calls := [] }

/-- The complete list of reconstructed function calls once the stream ends:
the calls finalized during streaming followed by every still-pending call in
dict-iteration order (lines 99–101 / 312–314 of the source). -/
def aggregateFunctionCalls (deltas : List Delta) : List FuncCall :=
  let st := runAggregation deltas
  st.function_calls ++ st.current_function_calls.map (fun p => p.2)

/-- One merged suggestion entry, the dict built at lines 141–151. -/
structure SuggestionEntry where
  type : String
  severity : JVal
  paragraph : JVal
  description : String
  text : JVal
  suggestion : JVal
  originalText : JVal
  replaceTo : JVal
  issues : List JVal

/-- One diagram-insertion directive, the dict built at lines 164–169
(and again at lines 333–338). -/
structure DiagramInsertion where
  insert_after_text : JVal
  mermaid_syntax : JVal
  diagram_type : JVal
  title : JVal

/-- The review cycle's terminal payload `{"issues": ..., "diagram_insertions": ...}`. -/
structure ReviewResult where
  issues : List SuggestionEntry
  diagram_insertions : List DiagramInsertion

/-- `severity_order.get(x, 2)` with `severity_order = {"high": 3, "medium": 2, "low": 1}`. -/
def severityOrderGet : JVal → Int
  | .str "high" => 3
  | .str "medium" => 2
  | .str "low" => 1
  | _ => 2

/-- Python `max(x :: xs, key=w)`: fold keeping the current best and
replacing it only on a strictly larger key, so the first maximal element
wins ties. -/
def pyMaxBy (w : JVal → Int) (x : JVal) (xs : List JVal) : JVal :=
  xs.foldl (fun best y => if w best < w y then y else best) x

/-- The underlying strings of a list of parsed JSON values, or `none` if
any element is not a string. -/
def strVals? : List JVal → Option (List String)
  | [] => some []
  | .str s :: rest => (strVals? rest).map (fun ss => s :: ss)
  | _ => none

/-- The underlying objects of a list of parsed JSON values, or `none` if
any element is not an object. -/
def objVals? : List JVal → Option (List (List (String × JVal)))
  | [] => some []
  | .obj o :: rest => (objVals? rest).map (fun os => o :: os)
  | _ => none

/-- Python `sep.join(xs)` on parsed JSON values: every element must be a
string (`TypeError` otherwise, modelled as `Except.error`). -/
def pyJoin (sep : String) (xs : List JVal) : Except Unit String :=
  match strVals? xs with
  | some ss => .ok (String.intercalate sep ss)
  | none => .error ()

/-- The `create_suggestion` handler body after a successful
`json.loads` (lines 118–152): legacy-shape normalization, then the merge of
all issues into a single suggestion entry.  `.ok none` means the call
contributed nothing (falsy `text_issues`), `.error ()` models an uncaught
Python exception (non-dict issue elements, unhashable severities,
non-string types/descriptions). -/
def createSuggestionEntry (kvs : List (String × JVal)) : Except Unit (Option SuggestionEntry) :=
  let text_issues := objGetD kvs "issues" (.arr [])
  let text_issues :=
    if !text_issues.pyTruthy && (objGetD kvs "type" .null).pyTruthy then
      .arr [.obj [("type", objGetD kvs "type" (.str "")),
                  ("severity", objGetD kvs "severity" (.str "medium")),
                  ("description", objGetD kvs "description" (.str ""))]]
    else text_issues
  if text_issues.pyTruthy then
    match text_issues with
    | .arr items =>
      match objVals? items with
      | none => .error ()
      | some objs =>
        let types := objs.map (fun o => objGetD o "type" (.str ""))
        let descriptions := objs.map (fun o => objGetD o "description" (.str ""))
        let severities := objs.map (fun o => objGetD o "severity" (.str "medium"))
        if severities.all JVal.hashable then
          match severities with
          | [] => .error ()
          | sv :: svs =>
            let max_severity := pyMaxBy severityOrderGet sv svs
            match pyJoin " & " types with
            | .error e => .error e
            | .ok mergedType =>
              match pyJoin " | " descriptions with
              | .error e => .error e
              | .ok mergedDescription =>
                .ok (some
                  { type := mergedType,
                    severity := max_severity,
                    paragraph := objGetD kvs "paragraph" (.num 1),
                    description := mergedDescription,
                    text := objGetD kvs "originalText" (.str ""),
                    suggestion := objGetD kvs "replaceTo" (.str ""),
                    originalText := objGetD kvs "originalText" (.str ""),
                    replaceTo := objGetD kvs "replaceTo" (.str ""),
                    issues := items })
        else .error ()
    | _ => .error ()
  else .ok none

/-- The `insert_diagram` handler body after a successful `json.loads`
(lines 164–169): defaults `""`, `""`, `"flowchart"`, `""`. -/
def insertDiagramEntry (kvs : List (String × JVal)) : DiagramInsertion :=
  { insert_after_text := objGetD kvs "insert_after_text" (.str ""),
    mermaid_syntax := objGetD kvs "mermaid_syntax" (.str ""),
    diagram_type := objGetD kvs "diagram_type" (.str "flowchart"),
    title := objGetD kvs "title" (.str "") }

/-- The dispatch loop over the collected function calls (lines 112–175):
`json.JSONDecodeError` is caught per invocation (`continue`); other
exceptions abort the cycle. -/
def processFunctionCalls (parse : String → Option JVal) :
    List FuncCall → ReviewResult → Except Unit ReviewResult
  | [], acc => .ok acc
  | fc :: rest, acc =>
    if fc.name == "create_suggestion" then
      match parse fc.arguments with
      | none => processFunctionCalls parse rest acc
      | some (.obj kvs) =>
        match createSuggestionEntry kvs with
        | .error e => .error e
        | .ok none => processFunctionCalls parse rest acc
        | .ok (some entry) =>
          processFunctionCalls parse rest { acc with issues := acc.issues ++ [entry] }
      | some _ => .error ()
    else if fc.name == "insert_diagram" then
      match parse fc.arguments with
      | none => processFunctionCalls parse rest acc
      | some (.obj kvs) =>
        processFunctionCalls parse rest
          { acc with diagram_insertions := acc.diagram_insertions ++ [insertDiagramEntry kvs] }
      | some _ => .error ()
    else processFunctionCalls parse rest acc

/-- One element yielded by one of the async generators.  The review
generator yields exactly one JSON payload (line 186); the chat generator
yields text content as it arrives (line 291) and, after the stream, fenced
mermaid blocks (line 322) and `DIAGRAM_INSERT:` directives (line 339). -/
inductive GenOut where
  | content (s : String)
  | mermaid (v : JVal)
  | diagramInsert (d : DiagramInsertion)
  | resultJson (r : ReviewResult)

/-- The full yielded output of `review_document_with_functions` on a given
delta stream: plain-text content is only logged (lines 74–75), tool calls
are aggregated, and a single result payload is yielded at the end; an
uncaught exception while dispatching yields nothing. -/
def review_document_with_functions (parse : String → Option JVal)
    (deltas : List Delta) : List GenOut :=
  match processFunctionCalls parse (aggregateFunctionCalls deltas)
      { issues := [], diagram_insertions := [] } with
  | .ok r => [.resultJson r]
  | .error _ => []

/-- Handling of one reconstructed call in the post-stream loop of
`chat_with_document_context` (lines 317–343). -/
def chatHandleCall (parse : String → Option JVal) (fc : FuncCall) :
    Except Unit (List GenOut) :=
  if fc.name == "create_diagram" then
    match parse fc.arguments with
    | none => .ok []
    | some (.obj kvs) => .ok [.mermaid (objGetD kvs "mermaid_syntax" (.str ""))]
    | some _ => .error ()
  else if fc.name == "insert_diagram" then
    match parse fc.arguments with
    | none => .ok []
    | some (.obj kvs) => .ok [.diagramInsert (insertDiagramEntry kvs)]
    | some _ => .error ()
  else .ok []

/-- The post-stream yields of `chat_with_document_context`; an uncaught
exception stops the generator, discarding the remaining calls. -/
def chatPostOuts (parse : String → Option JVal) : List FuncCall → List GenOut
  | [] => []
  | fc :: rest =>
    match chatHandleCall parse fc with
    | .ok outs => outs ++ chatPostOuts parse rest
    | .error _ => []

/-- The truthy text contents of a delta stream, in arrival order
(`if delta.content: yield delta.content`). -/
def liveContents (deltas : List Delta) : List String :=
  deltas.filterMap (fun d =>
    match d.content with
    | some s => if s != "" then some s else none
    | none => none)

/-- The full yielded output of the streaming part of
`chat_with_document_context` (lines 286–343): content deltas are yielded
as they arrive, tool calls are aggregated, and the reconstructed calls are
dispatched after the stream ends. -/
def chat_with_document_context (parse : String → Option JVal)
    (deltas : List Delta) : List GenOut :=
  (liveContents deltas).map GenOut.content
    ++ chatPostOuts parse (aggregateFunctionCalls deltas)

/-- The text elements of a generator's yielded output: the live text
channel seen by the caller. -/
def liveText (outs : List GenOut) : List String :=
  outs.filterMap (fun o => match o with | .content s => some s | _ => none)

/-- The spec's described severity resolution (§4.3), written from the
spec's words: the first element, in input order, whose numeric severity
weight is maximal over the whole list. -/
def specStableArgmax (l : List JVal) : Option JVal :=
  l.find? (fun x => l.all (fun y => severityOrderGet y ≤ severityOrderGet x))

/-- All tool-call fragments of a delta stream, in arrival order. -/
def flatFrags : List Delta → List ToolCallFragment
  | [] => []
  | d :: ds => d.tool_calls ++ flatFrags ds

/-- No fragment carrying a non-empty name uses a slot already seen in any
earlier fragment: every later fragment `b` either carries no name or a slot
different from every earlier fragment `a`. -/
def FreshSlots (frags : List ToolCallFragment) : Prop :=
  frags.Pairwise (fun a b => b.name = "" ∨ b.index ≠ a.index)

instance (frags : List ToolCallFragment) : Decidable (FreshSlots frags) :=
  List.instDecidablePairwise frags

/-- All argument text delivered for slot `s`, concatenated in arrival order
(including the chunk carried by the fragment that opens the slot). -/
def slotChunks : List ToolCallFragment → Nat → String
  | [], _ => ""
  | f :: fs, s => (if f.index == s then f.arguments.getD "" else "") ++ slotChunks fs s

/-- The fragments that open an invocation (non-empty name). -/
def openers (frags : List ToolCallFragment) : List ToolCallFragment :=
  frags.filter (fun f => f.name != "")

/-- The pending dict predicted from the fragment list alone: one entry per
opener, in opener order, holding every chunk delivered for its slot. -/
def pendingSpec (frags : List ToolCallFragment) : List (Nat × FuncCall) :=
  (openers frags).map (fun f => (f.index, { name := f.name, arguments := slotChunks frags f.index }))

/-- The slots of a fragment list in order of first opening: a slot is
appended when a named fragment arrives for it and it is not yet present. -/
def firstOpenedAux : List ToolCallFragment → List Nat → List Nat
  | [], acc => acc
  | f :: fs, acc =>
    if f.name != "" && !(acc.contains f.index) then firstOpenedAux fs (acc ++ [f.index])
    else firstOpenedAux fs acc

/-- The slots of a delta stream's fragments in first-opened order. -/
def firstOpened (frags : List ToolCallFragment) : List Nat :=
  firstOpenedAux frags []

/-- Insertion into a slot-ascending pending list (spec-side ordering). -/
def insertAsc (p : Nat × FuncCall) : List (Nat × FuncCall) → List (Nat × FuncCall)
  | [] => [p]
  | q :: qs => if p.1 ≤ q.1 then p :: q :: qs else q :: insertAsc p qs

/-- Insertion sort of a pending list by ascending slot (spec-side ordering). -/
def sortAscBySlot : List (Nat × FuncCall) → List (Nat × FuncCall)
  | [] => []
  | p :: ps => insertAsc p (sortAscBySlot ps)

/-- The aggregator described by the spec's words for end-of-stream
finalization: still-pending slots are finalized in ascending slot order. -/
def aggregateAscendingSpec (deltas : List Delta) : List FuncCall :=
  let st := runAggregation deltas
  st.function_calls ++ (sortAscBySlot st.current_function_calls).map (fun p => p.2)

/-! ### Claim theorems -/

/-- C1: Slot reuse — when a tool-call fragment carrying a non-empty name
arrives for a slot that already has a pending invocation, the aggregator
appends the previous occupant to the completed output before starting the
new one; in particular the fragment sequence
`[(slot 0, name A), (slot 0, chunk "x"), (slot 0, name B), (slot 0, chunk "y")]`
yields exactly the two completed invocations `{A, "x"}` then `{B, "y"}`. -/
theorem slot_reuse_finalizes_previous_occupant :
    (∀ (st : AggState) (tc : ToolCallFragment) (prev : FuncCall), tc.name ≠ "" →
        dictGet? st.current_function_calls tc.index = some prev →
        (stepFragment st tc).function_calls = st.function_calls ++ [prev]) ∧
    aggregateFunctionCalls
      [{ content := none, tool_calls := [⟨0, "A", none⟩] },
       { content := none, tool_calls := [⟨0, "", some "x"⟩] },
       { content := none, tool_calls := [⟨0, "B", none⟩] },
       { content := none, tool_calls := [⟨0, "", some "y"⟩] }] =
      [⟨"A", "x"⟩, ⟨"B", "y"⟩] := by
  constructor
  · intro st tc prev hname hget
    simp [stepFragment, hget, bne_iff_ne, hname]
  · decide

theorem slot_reuse_witness :
    (stepFragment { function_calls := [], current_function_calls := [(0, ⟨"A", "x"⟩)] }
      ⟨0, "B", none⟩).function_calls = [⟨"A", "x"⟩] := by
  have h := slot_reuse_finalizes_previous_occupant.1
    { function_calls := [], current_function_calls := [(0, ⟨"A", "x"⟩)] }
    ⟨0, "B", none⟩ ⟨"A", "x"⟩ (by decide) (by rfl)
  simpa using h

/-- C6: Legacy-shape normalization — a `create_suggestion` payload with no
`issues` key but a truthy flat `type` field is normalized into a
one-element issue list `[{type, severity, description}]` (with defaults
`"medium"` and `""` for absent severity/description) before merging. -/
theorem legacy_shape_normalized (kvs : List (String × JVal)) (t sv ds : String)
    (hiss : objGet? kvs "issues" = none)
    (hty : objGet? kvs "type" = some (.str t)) (htne : t ≠ "")
    (hsv : objGetD kvs "severity" (.str "medium") = .str sv)
    (hds : objGetD kvs "description" (.str "") = .str ds) :
    createSuggestionEntry kvs = .ok (some
      { type := t, severity := .str sv,
        paragraph := objGetD kvs "paragraph" (.num 1),
        description := ds,
        text := objGetD kvs "originalText" (.str ""),
        suggestion := objGetD kvs "replaceTo" (.str ""),
        originalText := objGetD kvs "originalText" (.str ""),
        replaceTo := objGetD kvs "replaceTo" (.str ""),
        issues := [.obj [("type", .str t), ("severity", .str sv),
                         ("description", .str ds)]] }) := by
  have h1 : objGetD kvs "issues" (.arr []) = .arr [] := by simp [objGetD, hiss]
  have h2 : objGetD kvs "type" .null = .str t := by simp [objGetD, hty]
  have h3 : objGetD kvs "type" (.str "") = .str t := by simp [objGetD, hty]
  simp only [createSuggestionEntry, h1, h2, h3, hsv, hds]
  simp [JVal.pyTruthy, htne, objVals?, strVals?, objGet?, objGetD, pyJoin,
    pyMaxBy, JVal.hashable, List.find?, String.intercalate, bne_iff_ne]
  exact ⟨rfl, rfl⟩

theorem legacy_shape_witness :
    createSuggestionEntry
      [("type", .str "Ambiguity"), ("severity", .str "low"), ("description", .str "d")] =
    .ok (some
      { type := "Ambiguity", severity := .str "low", paragraph := .num 1,
        description := "d", text := .str "", suggestion := .str "",
        originalText := .str "", replaceTo := .str "",
        issues := [.obj [("type", .str "Ambiguity"), ("severity", .str "low"),
                         ("description", .str "d")]] }) :=
  legacy_shape_normalized
    [("type", .str "Ambiguity"), ("severity", .str "low"), ("description", .str "d")]
    "Ambiguity" "low" "d" rfl rfl (by decide) rfl rfl

/-- C9: Diagram-only cycle and defaults — when the reconstructed calls are
exactly one `insert_diagram` invocation whose arguments parse to an object
without `diagram_type` and `title` keys, the review result has an empty
issues sequence and exactly one diagram insertion with `diagram_type`
defaulted to `"flowchart"` and `title` defaulted to `""`. -/
theorem diagram_only_cycle_defaults (parse : String → Option JVal)
    (deltas : List Delta) (s : String) (kvs : List (String × JVal))
    (hagg : aggregateFunctionCalls deltas = [⟨"insert_diagram", s⟩])
    (hparse : parse s = some (.obj kvs))
    (hdt : objGet? kvs "diagram_type" = none)
    (hti : objGet? kvs "title" = none) :
    review_document_with_functions parse deltas =
      [.resultJson
        { issues := [],
          diagram_insertions :=
            [{ insert_after_text := objGetD kvs "insert_after_text" (.str ""),
               mermaid_syntax := objGetD kvs "mermaid_syntax" (.str ""),
               diagram_type := .str "flowchart",
               title := .str "" }] }] := by
  have hd : objGetD kvs "diagram_type" (.str "flowchart") = .str "flowchart" := by
    simp [objGetD, hdt]
  have ht : objGetD kvs "title" (.str "") = .str "" := by simp [objGetD, hti]
  simp [review_document_with_functions, hagg, processFunctionCalls, hparse,
    insertDiagramEntry, hd, ht]

theorem diagram_only_witness :
    review_document_with_functions
      (fun _ => some (.obj [("insert_after_text", .str "after"),
                            ("mermaid_syntax", .str "graph TD")]))
      [{ content := none, tool_calls := [⟨0, "insert_diagram", some "{}"⟩] }] =
    [.resultJson
      { issues := [],
        diagram_insertions :=
          [{ insert_after_text := .str "after",
             mermaid_syntax := .str "graph TD",
             diagram_type := .str "flowchart",
             title := .str "" }] }] :=
  diagram_only_cycle_defaults
    (fun _ => some (.obj [("insert_after_text", .str "after"),
                          ("mermaid_syntax", .str "graph TD")]))
    [{ content := none, tool_calls := [⟨0, "insert_diagram", some "{}"⟩] }]
    "{}"
    [("insert_after_text", .str "after"), ("mermaid_syntax", .str "graph TD")]
    (by decide) rfl rfl rfl

/-- C10 (implicit): a `create_suggestion` invocation whose arguments parse
to an object with an empty or absent `issues` array and no non-empty legacy
`type` field contributes nothing and raises nothing: the dispatcher
continues with the remaining invocations exactly as if the call were not
there. -/
theorem empty_issue_list_skipped (parse : String → Option JVal)
    (s : String) (kvs : List (String × JVal))
    (hparse : parse s = some (.obj kvs))
    (hiss : objGet? kvs "issues" = none ∨ objGet? kvs "issues" = some (.arr []))
    (hty : objGet? kvs "type" = none ∨ objGet? kvs "type" = some (.str "")) :
    createSuggestionEntry kvs = .ok none ∧
    ∀ (rest : List FuncCall) (acc : ReviewResult),
      processFunctionCalls parse (⟨"create_suggestion", s⟩ :: rest) acc =
        processFunctionCalls parse rest acc := by
  have hcs : createSuggestionEntry kvs = .ok none := by
    have h1 : objGetD kvs "issues" (.arr []) = .arr [] := by
      rcases hiss with h | h <;> simp [objGetD, h]
    have h2 : objGetD kvs "type" .null = .null ∨ objGetD kvs "type" .null = .str "" := by
      rcases hty with h | h
      · exact .inl (by simp [objGetD, h])
      · exact .inr (by simp [objGetD, h])
    rcases h2 with h2 | h2 <;> simp [createSuggestionEntry, h1, h2, JVal.pyTruthy]
  refine ⟨hcs, ?_⟩
  intro rest acc
  simp [processFunctionCalls, hparse, hcs]

theorem empty_issue_list_witness :
    createSuggestionEntry [("paragraph", .num 2)] = .ok none ∧
    processFunctionCalls (fun _ => some (.obj [("paragraph", .num 2)]))
      [⟨"create_suggestion", "{}"⟩] { issues := [], diagram_insertions := [] } =
      processFunctionCalls (fun _ => some (.obj [("paragraph", .num 2)]))
        [] { issues := [], diagram_insertions := [] } :=
  ⟨(empty_issue_list_skipped (fun _ => some (.obj [("paragraph", .num 2)]))
      "{}" [("paragraph", .num 2)] rfl (.inl rfl) (.inl rfl)).1,
   (empty_issue_list_skipped (fun _ => some (.obj [("paragraph", .num 2)]))
      "{}" [("paragraph", .num 2)] rfl (.inl rfl) (.inl rfl)).2
     [] { issues := [], diagram_insertions := [] }⟩

/-- C7: Malformed-argument isolation — a stream whose reconstructed calls
are one `create_suggestion` invocation with unparsable arguments followed
by one valid suggestion invocation still yields a result containing exactly
the valid invocation's suggestion. -/
theorem malformed_argument_isolated (parse : String → Option JVal)
    (deltas : List Delta) (s₁ s₂ : String) (kvs : List (String × JVal))
    (e : SuggestionEntry)
    (hagg : aggregateFunctionCalls deltas =
      [⟨"create_suggestion", s₁⟩, ⟨"create_suggestion", s₂⟩])
    (h₁ : parse s₁ = none)
    (h₂ : parse s₂ = some (.obj kvs))
    (he : createSuggestionEntry kvs = .ok (some e)) :
    review_document_with_functions parse deltas =
      [.resultJson { issues := [e], diagram_insertions := [] }] := by
  simp [review_document_with_functions, hagg, processFunctionCalls, h₁, h₂, he]

theorem malformed_argument_witness :
    review_document_with_functions
      (fun s => if s == "bad" then none
        else some (.obj [("type", .str "Ambiguity"), ("severity", .str "low"),
                         ("description", .str "d")]))
      [{ content := none,
         tool_calls := [⟨0, "create_suggestion", some "bad"⟩,
                        ⟨1, "create_suggestion", some "good"⟩] }] =
    [.resultJson
      { issues := [{ type := "Ambiguity", severity := .str "low", paragraph := .num 1,
                     description := "d", text := .str "", suggestion := .str "",
                     originalText := .str "", replaceTo := .str "",
                     issues := [.obj [("type", .str "Ambiguity"), ("severity", .str "low"),
                                      ("description", .str "d")]] }],
        diagram_insertions := [] }] :=
  malformed_argument_isolated
    (fun s => if s == "bad" then none
      else some (.obj [("type", .str "Ambiguity"), ("severity", .str "low"),
                       ("description", .str "d")]))
    [{ content := none,
       tool_calls := [⟨0, "create_suggestion", some "bad"⟩,
                      ⟨1, "create_suggestion", some "good"⟩] }]
    "bad" "good"
    [("type", .str "Ambiguity"), ("severity", .str "low"), ("description", .str "d")]
    { type := "Ambiguity", severity := .str "low", paragraph := .num 1,
      description := "d", text := .str "", suggestion := .str "",
      originalText := .str "", replaceTo := .str "",
      issues := [.obj [("type", .str "Ambiguity"), ("severity", .str "low"),
                       ("description", .str "d")]] }
    (by decide) rfl rfl rfl

theorem pyMaxBy_of_all_le (w : JVal → Int) (b : JVal) (xs : List JVal)
    (h : ∀ y ∈ xs, w y ≤ w b) : pyMaxBy w b xs = b := by
  induction xs with
  | nil => rfl
  | cons c cs ih =>
    have hc : ¬ (w b < w c) := not_lt.mpr (h c (by simp))
    simpa [pyMaxBy, hc] using ih (fun y hy => h y (by simp [hy]))

theorem pyMaxBy_dominated (w : JVal → Int) (b b' : JVal) (xs : List JVal)
    (hbb : w b' ≤ w b) (hex : ∃ y ∈ xs, w b < w y) :
    pyMaxBy w b' xs = pyMaxBy w b xs := by
  induction xs generalizing b b' with
  | nil => rcases hex with ⟨y, hy, _⟩; cases hy
  | cons c cs ih =>
    rcases hex with ⟨y, hy, hwy⟩
    by_cases hc : w b < w c
    · have hc' : w b' < w c := lt_of_le_of_lt hbb hc
      simp [pyMaxBy, hc, hc']
    · have hyc : y ∈ cs := by
        rcases List.mem_cons.mp hy with rfl | h
        · exact absurd hwy hc
        · exact h
      have hex' : ∃ y ∈ cs, w b < w y := ⟨y, hyc, hwy⟩
      by_cases hc' : w b' < w c
      · have hcb : w c ≤ w b := not_lt.mp hc
        simpa [pyMaxBy, hc, hc'] using ih b c hcb hex'
      · simpa [pyMaxBy, hc, hc'] using ih b b' hbb hex'

theorem find?_congr_mem {α : Type} {p q : α → Bool} (l : List α)
    (h : ∀ a ∈ l, p a = q a) : l.find? p = l.find? q := by
  induction l with
  | nil => rfl
  | cons a as ih =>
    rw [List.find?_cons, List.find?_cons, h a (by simp)]
    cases q a with
    | true => rfl
    | false => exact ih (fun x hx => h x (by simp [hx]))

theorem pyMaxBy_eq_first_max (w : JVal → Int) (x : JVal) (xs : List JVal) :
    some (pyMaxBy w x xs) =
      (x :: xs).find? (fun t => (x :: xs).all (fun y => w y ≤ w t)) := by
  induction xs generalizing x with
  | nil => simp [pyMaxBy]
  | cons c cs ih =>
    by_cases hall : ∀ y ∈ c :: cs, w y ≤ w x
    · rw [pyMaxBy_of_all_le w x (c :: cs) hall]
      rw [List.find?_cons_of_pos]
      simp only [List.all_eq_true, decide_eq_true_eq]
      intro y hy
      rcases List.mem_cons.mp hy with rfl | h
      · exact le_refl _
      · exact hall y h
    · push_neg at hall
      rcases hall with ⟨y₀, hy₀, hwy₀⟩
      have hwy₀' : w x < w y₀ := hwy₀
      have hfalse : ((x :: c :: cs).all (fun y => (w y ≤ w x : Bool))) = false := by
        have hne : ¬ ((x :: c :: cs).all (fun y => (w y ≤ w x : Bool)) = true) := by
          simp only [List.all_eq_true, decide_eq_true_eq]
          intro hcontra
          exact absurd (hcontra y₀ (by simp [hy₀])) (not_le.mpr hwy₀')
        revert hne
        cases ((x :: c :: cs).all (fun y => (w y ≤ w x : Bool))) <;> simp
      rw [List.find?_cons]
      simp only [hfalse]
      have hcongr :
          (c :: cs).find? (fun t => (x :: c :: cs).all (fun y => w y ≤ w t)) =
          (c :: cs).find? (fun t => (c :: cs).all (fun y => w y ≤ w t)) := by
        apply find?_congr_mem
        intro t ht
        cases htail : ((c :: cs).all (fun y => (w y ≤ w t : Bool))) with
        | true =>
          have hxt : w x ≤ w t := by
            have := (List.all_eq_true.mp htail) y₀ hy₀
            simp only [decide_eq_true_eq] at this
            exact le_of_lt (lt_of_lt_of_le hwy₀' this)
          simp [List.all_cons, htail, hxt]
        | false => simp [List.all_cons, htail]
      rw [hcongr, ← ih c]
      by_cases hxc : w x < w c
      · simp [pyMaxBy, hxc]
      · have hcx : w c ≤ w x := not_lt.mp hxc
        have hyc : y₀ ∈ cs := by
          rcases List.mem_cons.mp hy₀ with rfl | h
          · exact absurd hwy₀' hxc
          · exact h
        have hswap : pyMaxBy w c cs = pyMaxBy w x cs :=
          pyMaxBy_dominated w x c cs hcx ⟨y₀, hyc, hwy₀'⟩
        simp only [pyMaxBy, List.foldl_cons, if_neg hxc]
        exact congrArg some hswap.symm

/-- C4: Merged severity is a stable argmax — for a non-empty severities
list drawn from {high, medium, low}, Python's `max(..., key=...)` as used
at line 138 returns the first element in input order whose weight under
`{high: 3, medium: 2, low: 1}` is maximal; in particular a suggestion whose
issues carry severities `[low, high, medium]` merges to severity `high`,
and `[medium, medium]` merges to `medium`. -/
theorem merged_severity_stable_argmax :
    (∀ (sv : JVal) (svs : List JVal),
      (∀ v ∈ sv :: svs, v = .str "high" ∨ v = .str "medium" ∨ v = .str "low") →
      some (pyMaxBy severityOrderGet sv svs) = specStableArgmax (sv :: svs)) ∧
    (∃ e : SuggestionEntry,
      createSuggestionEntry [("issues", .arr [
        .obj [("type", .str "a"), ("severity", .str "low"), ("description", .str "x")],
        .obj [("type", .str "b"), ("severity", .str "high"), ("description", .str "y")],
        .obj [("type", .str "c"), ("severity", .str "medium"), ("description", .str "z")]])] =
        .ok (some e) ∧ e.severity = .str "high") ∧
    (∃ e : SuggestionEntry,
      createSuggestionEntry [("issues", .arr [
        .obj [("type", .str "a"), ("severity", .str "medium"), ("description", .str "x")],
        .obj [("type", .str "b"), ("severity", .str "medium"), ("description", .str "y")]])] =
        .ok (some e) ∧ e.severity = .str "medium") := by
  refine ⟨?_, ⟨_, rfl, rfl⟩, ⟨_, rfl, rfl⟩⟩
  intro sv svs _
  exact pyMaxBy_eq_first_max severityOrderGet sv svs

theorem merged_severity_witness :
    some (pyMaxBy severityOrderGet (.str "low") [.str "high", .str "medium"]) =
      specStableArgmax [.str "low", .str "high", .str "medium"] :=
  merged_severity_stable_argmax.1 (.str "low") [.str "high", .str "medium"]
    (by
      intro v hv
      simp only [List.mem_cons, List.not_mem_nil, or_false] at hv
      rcases hv with rfl | rfl | rfl
      · exact .inr (.inr rfl)
      · exact .inl rfl
      · exact .inr (.inl rfl))

theorem strVals?_map_str (ss : List String) : strVals? (ss.map JVal.str) = some ss := by
  induction ss with
  | nil => rfl
  | cons a as ih => simp [strVals?, ih]

theorem objVals?_length (items : List JVal) (objs : List (List (String × JVal)))
    (h : objVals? items = some objs) : objs.length = items.length := by
  induction items generalizing objs with
  | nil =>
    simp only [objVals?, Option.some.injEq] at h
    simp [← h]
  | cons i is ih =>
    cases i with
    | obj o =>
      simp only [objVals?, Option.map_eq_some'] at h
      rcases h with ⟨os, hos, rfl⟩
      simp [ih os hos]
    | null => simp [objVals?] at h
    | bool b => simp [objVals?] at h
    | num n => simp [objVals?] at h
    | str s => simp [objVals?] at h
    | arr xs => simp [objVals?] at h

/-- C5: Merge concatenation — for a non-empty issues list, the merged
`type` field is the issues' `type` fields joined in input order with
`" & "`, and the merged `description` field is their `description` fields
joined in input order with `" | "`; in particular types
`["Structure", "Punctuation"]` give `"Structure & Punctuation"`. -/
theorem merged_type_description_concatenation (kvs : List (String × JVal))
    (items : List JVal) (objs : List (List (String × JVal))) (ts ds : List String)
    (hiss : objGet? kvs "issues" = some (.arr items))
    (hne : items ≠ [])
    (hobjs : objVals? items = some objs)
    (hts : objs.map (fun o => objGetD o "type" (.str "")) = ts.map JVal.str)
    (hds : objs.map (fun o => objGetD o "description" (.str "")) = ds.map JVal.str)
    (hhash : (objs.map (fun o => objGetD o "severity" (.str "medium"))).all
      JVal.hashable = true) :
    ∃ e : SuggestionEntry, createSuggestionEntry kvs = .ok (some e) ∧
      e.type = String.intercalate " & " ts ∧
      e.description = String.intercalate " | " ds ∧
      e.issues = items ∧
    (∃ e2 : SuggestionEntry,
      createSuggestionEntry [("issues", .arr [
        .obj [("type", .str "Structure"), ("severity", .str "high"),
              ("description", .str "d1")],
        .obj [("type", .str "Punctuation"), ("severity", .str "low"),
              ("description", .str "d2")]])] = .ok (some e2) ∧
      e2.type = "Structure & Punctuation" ∧ e2.description = "d1 | d2") := by
  have h1 : objGetD kvs "issues" (.arr []) = .arr items := by simp [objGetD, hiss]
  have htruthy : (JVal.arr items).pyTruthy = true := by
    cases items with
    | nil => exact absurd rfl hne
    | cons a as => simp [JVal.pyTruthy]
  obtain ⟨o, os, rfl⟩ : ∃ o os, objs = o :: os := by
    cases objs with
    | nil =>
      have hlen := objVals?_length items [] hobjs
      cases items with
      | nil => exact absurd rfl hne
      | cons _ _ => simp at hlen
    | cons o os => exact ⟨o, os, rfl⟩
  simp only [List.map_cons] at hts hds hhash
  refine ⟨{ type := String.intercalate " & " ts,
            severity := pyMaxBy severityOrderGet
              (objGetD o "severity" (.str "medium"))
              (os.map (fun o2 => objGetD o2 "severity" (.str "medium"))),
            paragraph := objGetD kvs "paragraph" (.num 1),
            description := String.intercalate " | " ds,
            text := objGetD kvs "originalText" (.str ""),
            suggestion := objGetD kvs "replaceTo" (.str ""),
            originalText := objGetD kvs "originalText" (.str ""),
            replaceTo := objGetD kvs "replaceTo" (.str ""),
            issues := items }, ?_, rfl, rfl, rfl, ⟨_, rfl, rfl, rfl⟩⟩
  simp only [createSuggestionEntry, h1, htruthy, Bool.not_true, Bool.false_and,
    Bool.false_eq_true, if_false, hobjs, List.map_cons, hhash, if_true, pyJoin]
  rw [hts, hds, strVals?_map_str, strVals?_map_str]

theorem merged_concatenation_witness :
    ∃ e : SuggestionEntry,
      createSuggestionEntry [("issues", .arr [
        .obj [("type", .str "Structure"), ("severity", .str "high"),
              ("description", .str "d1")],
        .obj [("type", .str "Punctuation"), ("severity", .str "low"),
              ("description", .str "d2")]])] = .ok (some e) ∧
      e.type = String.intercalate " & " ["Structure", "Punctuation"] ∧
      e.description = String.intercalate " | " ["d1", "d2"] := by
  obtain ⟨e, he, ht, hd, _, _⟩ := merged_type_description_concatenation
    [("issues", .arr [
      .obj [("type", .str "Structure"), ("severity", .str "high"),
            ("description", .str "d1")],
      .obj [("type", .str "Punctuation"), ("severity", .str "low"),
            ("description", .str "d2")]])]
    [.obj [("type", .str "Structure"), ("severity", .str "high"),
           ("description", .str "d1")],
     .obj [("type", .str "Punctuation"), ("severity", .str "low"),
           ("description", .str "d2")]]
    [[("type", .str "Structure"), ("severity", .str "high"),
      ("description", .str "d1")],
     [("type", .str "Punctuation"), ("severity", .str "low"),
      ("description", .str "d2")]]
    ["Structure", "Punctuation"] ["d1", "d2"]
    rfl (by simp) rfl rfl rfl rfl
  exact ⟨e, he, ht, hd⟩

theorem foldl_stepDelta_eq (deltas : List Delta) (st : AggState) :
    deltas.foldl stepDelta st = (flatFrags deltas).foldl stepFragment st := by
  induction deltas generalizing st with
  | nil => rfl
  | cons d ds ih => simp [flatFrags, List.foldl_append, stepDelta, ih]

theorem dictGet?_none_iff (l : List (Nat × FuncCall)) (k : Nat) :
    dictGet? l k = none ↔ ∀ p ∈ l, p.1 ≠ k := by
  simp [dictGet?, List.find?_eq_none]

theorem dictGet?_some_any (l : List (Nat × FuncCall)) (k : Nat) (prev : FuncCall)
    (h : dictGet? l k = some prev) : l.any (fun p => p.1 == k) = true := by
  unfold dictGet? at h
  rcases Option.map_eq_some'.mp h with ⟨p, hp, _⟩
  have hmem := List.mem_of_find?_eq_some hp
  have hpk := List.find?_some hp
  exact List.any_eq_true.mpr ⟨p, hmem, hpk⟩

theorem dictGet?_eq_of_mem (l : List (Nat × FuncCall)) (p : Nat × FuncCall)
    (hdist : (l.map (fun q => q.1)).Pairwise (fun a b => a ≠ b)) (hp : p ∈ l) :
    dictGet? l p.1 = some p.2 := by
  induction l with
  | nil => cases hp
  | cons a l ih =>
    rw [List.map_cons, List.pairwise_cons] at hdist
    rcases hdist with ⟨hhead, htail⟩
    rcases List.mem_cons.mp hp with rfl | hp'
    · simp [dictGet?, List.find?_cons]
    · have ha : a.1 ≠ p.1 := hhead p.1 (List.mem_map.mpr ⟨p, hp', rfl⟩)
      have hrec : dictGet? l p.1 = some p.2 := ih htail hp'
      simpa [dictGet?, List.find?_cons, ha] using hrec

theorem dictSet_of_not_mem (l : List (Nat × FuncCall)) (k : Nat) (v : FuncCall)
    (h : ∀ p ∈ l, p.1 ≠ k) : dictSet l k v = l ++ [(k, v)] := by
  unfold dictSet
  rw [if_neg]
  simp only [List.any_eq_true, not_exists, not_and]
  intro p hp
  simp [h p hp]

theorem dictSet_of_get_some (l : List (Nat × FuncCall)) (k : Nat) (v prev : FuncCall)
    (h : dictGet? l k = some prev) :
    dictSet l k v = l.map (fun p => if p.1 == k then (k, v) else p) := by
  unfold dictSet
  rw [if_pos (dictGet?_some_any l k prev h)]

theorem slotChunks_append_singleton (fs : List ToolCallFragment) (f : ToolCallFragment)
    (s : Nat) :
    slotChunks (fs ++ [f]) s =
      slotChunks fs s ++ (if f.index == s then f.arguments.getD "" else "") := by
  induction fs with
  | nil => simp [slotChunks]
  | cons x xs ih => simp [slotChunks, ih, String.append_assoc]

theorem slotChunks_eq_empty (fs : List ToolCallFragment) (s : Nat)
    (h : ∀ g ∈ fs, g.index ≠ s) : slotChunks fs s = "" := by
  induction fs with
  | nil => rfl
  | cons x xs ih =>
    have hx : x.index ≠ s := h x (by simp)
    simp [slotChunks, hx, ih (fun g hg => h g (by simp [hg]))]

theorem openers_append_name (fs : List ToolCallFragment) (f : ToolCallFragment)
    (hname : f.name ≠ "") : openers (fs ++ [f]) = openers fs ++ [f] := by
  simp [openers, List.filter_append, hname]

theorem openers_append_chunk (fs : List ToolCallFragment) (f : ToolCallFragment)
    (hname : f.name = "") : openers (fs ++ [f]) = openers fs := by
  simp [openers, List.filter_append, hname]

theorem pendingSpec_keys (fs : List ToolCallFragment) :
    (pendingSpec fs).map (fun p => p.1) = (openers fs).map (fun f => f.index) := by
  simp only [pendingSpec, List.map_map]
  rfl

theorem openers_index_pairwise (fs : List ToolCallFragment) (h : FreshSlots fs) :
    ((openers fs).map (fun f => f.index)).Pairwise (fun a b => a ≠ b) := by
  rw [List.pairwise_map]
  have hsub : (openers fs).Pairwise (fun a b => b.name = "" ∨ b.index ≠ a.index) :=
    List.Pairwise.sublist (List.filter_sublist fs) h
  apply List.Pairwise.imp_of_mem ?_ hsub
  intro a b _ hb hab
  rcases hab with hb' | hne
  · have : b.name ≠ "" := by
      have := (List.mem_filter.mp hb).2
      simpa [bne_iff_ne] using this
    exact absurd hb' this
  · exact fun he => hne he.symm

theorem pendingSpec_append_chunk (fs : List ToolCallFragment) (f : ToolCallFragment)
    (hname : f.name = "") :
    pendingSpec (fs ++ [f]) =
      (pendingSpec fs).map (fun p =>
        if p.1 = f.index then
          (p.1, { name := p.2.name, arguments := p.2.arguments ++ f.arguments.getD "" })
        else p) := by
  unfold pendingSpec
  rw [openers_append_chunk fs f hname, List.map_map]
  apply List.map_congr_left
  intro g hg
  simp only [Function.comp_apply]
  rw [slotChunks_append_singleton]
  by_cases hgi : g.index = f.index
  · simp [hgi]
  · have : f.index ≠ g.index := fun he => hgi he.symm
    simp [hgi, this]

theorem pendingSpec_append_name (fs : List ToolCallFragment) (f : ToolCallFragment)
    (hname : f.name ≠ "") (hfresh : ∀ g ∈ fs, g.index ≠ f.index) :
    pendingSpec (fs ++ [f]) =
      pendingSpec fs ++ [(f.index, { name := f.name, arguments := f.arguments.getD "" })] := by
  unfold pendingSpec
  rw [openers_append_name fs f hname, List.map_append]
  congr 1
  · apply List.map_congr_left
    intro g hg
    have hgf : f.index ≠ g.index := by
      have hgfs : g ∈ fs := List.mem_of_mem_filter hg
      exact fun he => hfresh g hgfs he.symm
    rw [slotChunks_append_singleton]
    simp [hgf]
  · simp only [List.map_cons, List.map_nil]
    rw [slotChunks_append_singleton, slotChunks_eq_empty fs f.index hfresh]
    simp

theorem run_foldl_eq_pendingSpec (frags : List ToolCallFragment)
    (h : FreshSlots frags) :
    frags.foldl stepFragment { function_calls := [], current_function_calls := [] } =
      { function_calls := [], current_function_calls := pendingSpec frags } := by
  induction frags using List.reverseRecOn with
  | nil => rfl
  | append_singleton fs f ih =>
    unfold FreshSlots at h
    rw [List.pairwise_append] at h
    obtain ⟨hfs, -, hrel⟩ := h
    have hrel' : ∀ a ∈ fs, f.name = "" ∨ f.index ≠ a.index := by
      intro a ha
      exact hrel a ha f (by simp)
    rw [List.foldl_append, List.foldl_cons, List.foldl_nil, ih hfs]
    by_cases hname : f.name = ""
    · -- chunk fragment: appended to a pending slot, or dropped
      cases hd : dictGet? (pendingSpec fs) f.index with
      | none =>
        have hstep : stepFragment
            { function_calls := [], current_function_calls := pendingSpec fs } f =
            { function_calls := [], current_function_calls := pendingSpec fs } := by
          unfold stepFragment
          rw [if_neg (by simp [hname]), hd]
        rw [hstep, pendingSpec_append_chunk fs f hname]
        have hid : ∀ p ∈ pendingSpec fs,
            (if p.1 = f.index then
              ((p.1, { name := p.2.name,
                       arguments := p.2.arguments ++ f.arguments.getD "" }) : Nat × FuncCall)
             else p) = p := by
          intro p hp
          have := (dictGet?_none_iff (pendingSpec fs) f.index).mp hd p hp
          simp [this]
        rw [List.map_congr_left hid]
        simp
      | some prev =>
        have hstep : stepFragment
            { function_calls := [], current_function_calls := pendingSpec fs } f =
            { function_calls := [],
              current_function_calls :=
                dictSet (pendingSpec fs) f.index
                  { name := prev.name,
                    arguments := prev.arguments ++ f.arguments.getD "" } } := by
          unfold stepFragment
          rw [if_neg (by simp [hname]), hd]
        have hdist : ((pendingSpec fs).map (fun p => p.1)).Pairwise (fun a b => a ≠ b) := by
          rw [pendingSpec_keys]
          exact openers_index_pairwise fs hfs
        rw [hstep, dictSet_of_get_some _ _ _ prev hd, pendingSpec_append_chunk fs f hname]
        congr 1
        apply List.map_congr_left
        intro p hp
        by_cases hpk : p.1 = f.index
        · have hget : dictGet? (pendingSpec fs) p.1 = some p.2 :=
            dictGet?_eq_of_mem (pendingSpec fs) p hdist hp
          rw [hpk] at hget
          have hprev : prev = p.2 := by
            have := hget.symm.trans hd
            exact (Option.some.injEq _ _ ▸ this).symm ▸ rfl
          simp [hpk, ← hprev]
        · simp [hpk]
    · -- named fragment: opens a fresh slot
      have hfresh : ∀ g ∈ fs, g.index ≠ f.index := by
        intro g hg
        rcases hrel' g hg with h' | h'
        · exact absurd h' hname
        · exact fun he => h' he.symm
      have hkeys : ∀ p ∈ pendingSpec fs, p.1 ≠ f.index := by
        intro p hp
        obtain ⟨g, hg, rfl⟩ := List.mem_map.mp hp
        exact hfresh g (List.mem_of_mem_filter hg)
      have hnone : dictGet? (pendingSpec fs) f.index = none :=
        (dictGet?_none_iff _ _).mpr hkeys
      have hstep : stepFragment
          { function_calls := [], current_function_calls := pendingSpec fs } f =
          { function_calls := [],
            current_function_calls :=
              dictSet (pendingSpec fs) f.index
                { name := f.name, arguments := f.arguments.getD "" } } := by
        unfold stepFragment
        rw [if_pos (by simpa [bne_iff_ne] using hname), hnone]
      rw [hstep, dictSet_of_not_mem _ _ _ hkeys,
        pendingSpec_append_name fs f hname hfresh]

/-- C2: Per-slot aggregation — for every delta sequence in which each
fragment with a non-empty name uses a slot not previously seen, the
aggregator produces exactly one completed invocation per opened slot (the
opened slots are pairwise distinct), in opening order, and each
invocation's arguments string is the concatenation, in arrival order, of
every argument chunk delivered for its slot. -/
theorem per_slot_aggregation (deltas : List Delta)
    (h : FreshSlots (flatFrags deltas)) :
    aggregateFunctionCalls deltas =
      (openers (flatFrags deltas)).map
        (fun f => { name := f.name,
                    arguments := slotChunks (flatFrags deltas) f.index }) ∧
    ((openers (flatFrags deltas)).map (fun f => f.index)).Pairwise (fun a b => a ≠ b) := by
  constructor
  · unfold aggregateFunctionCalls runAggregation
    rw [foldl_stepDelta_eq, run_foldl_eq_pendingSpec _ h]
    simp only [pendingSpec, List.map_map, List.nil_append]
    rfl
  · exact openers_index_pairwise _ h

theorem per_slot_aggregation_witness :
    aggregateFunctionCalls
      [{ content := none, tool_calls := [⟨0, "create_suggestion", some "a"⟩,
                                         ⟨1, "insert_diagram", none⟩] },
       { content := some "txt", tool_calls := [⟨0, "", some "b"⟩, ⟨1, "", some "c"⟩] },
       { content := none, tool_calls := [⟨0, "", some "d"⟩] }] =
      [⟨"create_suggestion", "abd"⟩, ⟨"insert_diagram", "c"⟩] := by
  have h := (per_slot_aggregation
    [{ content := none, tool_calls := [⟨0, "create_suggestion", some "a"⟩,
                                       ⟨1, "insert_diagram", none⟩] },
     { content := some "txt", tool_calls := [⟨0, "", some "b"⟩, ⟨1, "", some "c"⟩] },
     { content := none, tool_calls := [⟨0, "", some "d"⟩] }] (by decide)).1
  rw [h]
  decide

theorem keys_contains_eq_any (l : List (Nat × FuncCall)) (k : Nat) :
    (l.map (fun p => p.1)).contains k = l.any (fun p => p.1 == k) := by
  induction l with
  | nil => rfl
  | cons a l ih =>
    by_cases h : a.1 = k
    · simp [h]
    · simp only [List.map_cons, List.contains_cons, List.any_cons, ih]
      have h1 : (k == a.1) = false := beq_eq_false_iff_ne.mpr (Ne.symm h)
      have h2 : (a.1 == k) = false := beq_eq_false_iff_ne.mpr h
      rw [h1, h2]

theorem dictSet_keys (l : List (Nat × FuncCall)) (k : Nat) (v : FuncCall) :
    (dictSet l k v).map (fun p => p.1) =
      (if l.any (fun p => p.1 == k) then l.map (fun p => p.1)
       else l.map (fun p => p.1) ++ [k]) := by
  unfold dictSet
  by_cases h : l.any (fun p => p.1 == k)
  · rw [if_pos h, if_pos h, List.map_map]
    apply List.map_congr_left
    intro p _
    simp only [Function.comp_apply]
    by_cases hpk : p.1 = k <;> simp [hpk]
  · rw [if_neg h, if_neg h]
    simp

theorem stepFragment_keys (st : AggState) (f : ToolCallFragment) :
    ((stepFragment st f).current_function_calls).map (fun p => p.1) =
      (if f.name != "" &&
          !((st.current_function_calls.map (fun p => p.1)).contains f.index) then
        st.current_function_calls.map (fun p => p.1) ++ [f.index]
       else st.current_function_calls.map (fun p => p.1)) := by
  by_cases hname : f.name = ""
  · rw [if_neg (by simp [hname])]
    unfold stepFragment
    rw [if_neg (by simp [hname])]
    cases hd : dictGet? st.current_function_calls f.index with
    | none => rfl
    | some prev =>
      simp only
      rw [dictSet_keys, if_pos (dictGet?_some_any _ _ prev hd)]
  · unfold stepFragment
    rw [if_pos (by simpa [bne_iff_ne] using hname)]
    simp only
    rw [dictSet_keys, keys_contains_eq_any]
    by_cases hc : st.current_function_calls.any (fun p => p.1 == f.index)
    · rw [if_pos hc, if_neg (by simp [hc])]
    · rw [if_neg hc, if_pos (by simp [bne_iff_ne, hname, hc])]

theorem foldl_keys_firstOpened (frags : List ToolCallFragment) (st : AggState) :
    ((frags.foldl stepFragment st).current_function_calls).map (fun p => p.1) =
      firstOpenedAux frags (st.current_function_calls.map (fun p => p.1)) := by
  induction frags generalizing st with
  | nil => rfl
  | cons f fs ih =>
    rw [List.foldl_cons, ih, firstOpenedAux]
    by_cases hc : (f.name != "" &&
        !((st.current_function_calls.map (fun p => p.1)).contains f.index)) = true
    · rw [if_pos hc]
      congr 1
      rw [stepFragment_keys, if_pos hc]
    · rw [if_neg hc]
      congr 1
      rw [stepFragment_keys, if_neg hc]

/-- C3 (amended): at end of stream the still-pending invocations are
finalized in the order their slots were first opened (Python dict insertion
order), not necessarily ascending slot order; on the stream that opens
slot 1 before slot 0 the output is the slot-1 invocation first. -/
theorem end_of_stream_first_opened_order :
    (∀ deltas : List Delta,
      ((runAggregation deltas).current_function_calls).map (fun p => p.1) =
        firstOpened (flatFrags deltas) ∧
      aggregateFunctionCalls deltas =
        (runAggregation deltas).function_calls ++
          ((runAggregation deltas).current_function_calls).map (fun p => p.2)) ∧
    aggregateFunctionCalls
      [{ content := none, tool_calls := [⟨1, "A", none⟩, ⟨0, "B", none⟩] }] =
      [⟨"A", ""⟩, ⟨"B", ""⟩] := by
  refine ⟨fun deltas => ⟨?_, rfl⟩, by decide⟩
  unfold runAggregation firstOpened
  rw [foldl_stepDelta_eq]
  exact foldl_keys_firstOpened (flatFrags deltas) _

/-- C3 counterexample: the aggregator that finalizes pending slots in
ascending slot order (the claim's description) disagrees with the code's
aggregator on the stream that opens slot 1 before slot 0: the code emits
the slot-1 invocation first. -/
theorem end_of_stream_not_ascending :
    aggregateAscendingSpec
      [{ content := none, tool_calls := [⟨1, "A", none⟩, ⟨0, "B", none⟩] }] ≠
    aggregateFunctionCalls
      [{ content := none, tool_calls := [⟨1, "A", none⟩, ⟨0, "B", none⟩] }] := by
  decide

theorem liveText_append (a b : List GenOut) :
    liveText (a ++ b) = liveText a ++ liveText b := by
  simp [liveText, List.filterMap_append]

theorem liveText_map_content (l : List String) :
    liveText (l.map GenOut.content) = l := by
  induction l with
  | nil => rfl
  | cons s ss ih => simp [liveText, List.filterMap_cons] at ih ⊢; exact ih

theorem chatHandleCall_no_content (parse : String → Option JVal) (fc : FuncCall)
    (outs : List GenOut) (h : chatHandleCall parse fc = .ok outs) :
    liveText outs = [] := by
  unfold chatHandleCall at h
  split at h
  · split at h
    · cases h; rfl
    · cases h; rfl
    · cases h
  · split at h
    · split at h
      · cases h; rfl
      · cases h; rfl
      · cases h
    · cases h; rfl

theorem chatPostOuts_no_content (parse : String → Option JVal) (calls : List FuncCall) :
    liveText (chatPostOuts parse calls) = [] := by
  induction calls with
  | nil => rfl
  | cons fc rest ih =>
    unfold chatPostOuts
    cases hc : chatHandleCall parse fc with
    | error e => rfl
    | ok outs =>
      rw [liveText_append, chatHandleCall_no_content parse fc outs hc, ih]
      rfl

/-- C8 (amended): plain-text content fragments are forwarded to the caller
as they arrive, in arrival order and independently of invocation results,
in the document-context chat cycle only; the document-review cycle does not
forward them (its live text channel is always empty — content deltas are
only logged there). -/
theorem live_text_passthrough :
    (∀ (parse : String → Option JVal) (deltas : List Delta),
      liveText (chat_with_document_context parse deltas) = liveContents deltas) ∧
    (∀ (parse : String → Option JVal) (deltas : List Delta),
      liveText (review_document_with_functions parse deltas) = []) := by
  constructor
  · intro parse deltas
    unfold chat_with_document_context
    rw [liveText_append, liveText_map_content, chatPostOuts_no_content,
      List.append_nil]
  · intro parse deltas
    unfold review_document_with_functions
    cases processFunctionCalls parse (aggregateFunctionCalls deltas)
      { issues := [], diagram_insertions := [] } <;> rfl

/-- C8 counterexample: a review stream delivering the plain-text content
fragment "hello" produces an empty live text channel — the review generator
does not forward content fragments, contradicting the claim for the
document-review cycle. -/
theorem review_does_not_forward_content :
    liveContents [{ content := some "hello", tool_calls := [] }] = ["hello"] ∧
    liveText (review_document_with_functions (fun _ => none)
        [{ content := some "hello", tool_calls := [] }]) ≠
      liveContents [{ content := some "hello", tool_calls := [] }] := by
  constructor
  · rfl
  · intro h
    have h2 : ([] : List String) = ["hello"] := h
    cases h2

end AIEnhanced
